import Mathlib

/-! Verification of the Exposer classifier (ece/Exposer.py): a shallow
embedding of its grid construction, geometry precomputation, normalization,
measure calculation and prediction logic, together with theorems about the
properties those routines are expected to satisfy.

Modelling conventions:
* Python floats are modelled exactly: rational inputs as `ℚ`, values built
  with `math.sqrt` as `ℝ`.
* Python lists are Lean `List`s; the flat grid is a function from the flat
  index and the class index to a real value.
* numpy divisions whose divisor is zero produce NaN (no exception); a value
  that may be NaN is modelled as `Option` with `none` for NaN.
* Feature vectors may contain missing values (numpy NaN); a feature is
  `Option ℚ` with `none` for a missing value.
-/

namespace Exposer

/-- Python `int()` / numpy `astype(int)`: truncation toward zero. -/
def truncQ (q : ℚ) : ℤ := if 0 ≤ q then ⌊q⌋ else -⌊-q⌋

/-- Value of a digit list in base `D`, least significant digit first.
Helper for reasoning about the mixed-radix loops of the source. -/
def mixedEncode (D : ℕ) : List ℕ → ℕ
  | [] => 0
  | x :: xs => x + D * mixedEncode D xs

/-- Per-index value of the helper counter `v` of `Exposer.dropVectors`
before loop iteration `i`.  The source updates the list `v` in place once
per iteration (`if i % z[j] == 0: v[j] += 1; if v[j] == diameter: v[j] = 0`
with `z[j] = diameter^j`); updates at distinct indices are independent, so
the list is represented by its per-index values. -/
def vFun (D : ℕ) : ℕ → ℕ → ℤ
  | 0, _ => -1
  | i + 1, j =>
    let x := vFun D i j
    if i % D ^ j = 0 then (if x + 1 = (D : ℤ) then 0 else x + 1) else x

/-- Candidate point of iteration `i` of `Exposer.dropVectors`:
`point = map(operator.add, v, beginning)` with `beginning = [-radius] * d`. -/
def dropPoint (d qR : ℕ) (i : ℕ) : List ℤ :=
  (List.range d).map (fun j => vFun (2 * qR + 1) (i + 1) j + -(qR : ℤ))

/-- Sum of squared components.  `Exposer.dropVectors` computes the distance
of `point` to the centre as `sqrt(sum(n**2 for n in centre - point))`, and
the squared distance of `-point` equals the squared distance of `point`. -/
def sumSq (p : List ℤ) : ℤ := (p.map (fun n => n ^ 2)).sum

/-- The filtered enumeration of `Exposer.dropVectors`: all points of the
hypercube `[-radius, radius]^d` (traversed via the counter `v`) whose
distance to the centre is strictly below the quantized radius.  The float
guard `sqrt(sumSq point) < radius` is expressed on squares, which is
equivalent since both sides are nonnegative. -/
def dropPoints (d qR : ℕ) : List (List ℤ) :=
  (List.range ((2 * qR + 1) ^ d)).filterMap (fun i =>
    if sumSq (dropPoint d qR i) < (qR : ℤ) ^ 2 then some (dropPoint d qR i) else none)

/-- Influence weight of a drop vector with squared distance `s`:
`(radius - distance) / radius` in `Exposer.dropVectors`. -/
noncomputable def dropWeight (qR : ℕ) (s : ℤ) : ℝ :=
  ((qR : ℝ) - Real.sqrt (s : ℝ)) / (qR : ℝ)

/-- `Exposer.dropVectors`: the list of pairs `(point, weight)` appended by
the enumeration loop. -/
noncomputable def dropVectors (d qR : ℕ) : List (List ℤ × ℝ) :=
  (dropPoints d qR).map (fun p => (p, dropWeight qR (sumSq p)))

/-- `radius = int(self.radius * self.grain)` in `Exposer.dropVectors`. -/
def quantizedRadius (radius : ℚ) (grain : ℕ) : ℤ := truncQ (radius * grain)

/-- The drop-vector set computed at `Exposer.__init__` from the configured
`radius` and `grain`.  `toNat` embeds the Python int; it is the identity
for every configuration with `radius * grain ≥ 0`. -/
noncomputable def exposerDropVectors (radius : ℚ) (grain d : ℕ) : List (List ℤ × ℝ) :=
  dropVectors d (quantizedRadius radius grain).toNat

/-- Vector of per-axis multipliers built at `Exposer.__init__`:
`g[0] = 1`, `g[i] = g[i-1] * grain`, i.e. `g[i] = grain ^ i`. -/
def gvec (grain d : ℕ) : List ℤ := (List.range d).map (fun i => (grain : ℤ) ^ i)

/-- `Exposer.position`: `acc = sum of p[i] * g[i] over i < dimensions`. -/
def position (grain d : ℕ) (p : List ℤ) : ℤ :=
  (List.zipWith (· * ·) p (gvec grain d)).sum

/-- Inverse mixed-radix decoding of a flat index, as described by the spec
(the source has no decoder; this is the spec-side inverse used to state
that `position` is a bijection). -/
def positionDecode (grain d : ℕ) (n : ℕ) : List ℤ :=
  (List.range d).map (fun j => ((n / grain ^ j % grain : ℕ) : ℤ))

/-- The flat grid `self.model`: value at flat cell index and class index. -/
abbrev Grid := ℤ → ℕ → ℝ

/-- `self.model[pos][lab] += x`. -/
noncomputable def gridAdd (g : Grid) (pos : ℤ) (lab : ℕ) (x : ℝ) : Grid :=
  fun p l => if p = pos ∧ l = lab then g p l + x else g p l

/-- The boundary check of `Exposer.learn`: `overflow` is set when some axis
of the shifted coordinate falls outside `[0, grain)`. -/
def overflow (grain d : ℕ) (vec : List ℤ) : Bool :=
  (List.range d).any (fun j =>
    decide (vec.getD j 0 < 0) || decide ((grain : ℤ) ≤ vec.getD j 0))

/-- Processing of a single drop vector in `Exposer.learn`: shift the
quantized location, skip on overflow, otherwise add
`influence = dropVector[1] * factor` at `position(vector)` and the label. -/
noncomputable def applyDrop (grain d : ℕ) (label : ℕ) (loc_i : List ℤ) (factor : ℝ)
    (g : Grid) (dv : List ℤ × ℝ) : Grid :=
  let vector := List.zipWith (· + ·) dv.1 loc_i
  if overflow grain d vector then g
  else gridAdd g (position grain d vector) label (dv.2 * factor)

/-- Euclidean distance between the quantized and the exact location in
`Exposer.learn`: `sqrt(sum((loc_i - loc_f)**2))`. -/
noncomputable def residual (li : List ℤ) (lf : List ℚ) : ℝ :=
  Real.sqrt (((List.zipWith (fun a b => (a : ℚ) - b) li lf).map (fun n => n ^ 2)).sum : ℚ)

/-- The selected feature values of a sample with no missing value
(`features` in `Exposer.learn` after the NaN check). -/
def defeatures (features : List (Option ℚ)) : List ℚ := features.map (fun o => o.getD 0)

/-- `location = np.array(features) * self.grain` in `Exposer.learn`. -/
def locF (grain : ℕ) (features : List (Option ℚ)) : List ℚ :=
  (defeatures features).map (fun f => f * (grain : ℚ))

/-- Componentwise `Int.floor`; used to state that the quantized location is
the floor of the continuous location (for nonnegative features this agrees
with the `astype(int)` truncation of the source). -/
def floorLoc (l : List ℚ) : List ℤ := l.map (fun q => ⌊q⌋)

/-- Processing of one training sample by `Exposer.learn`: samples with a
missing selected feature are skipped; otherwise the quantized location,
the correction factor `5 - distance` and the per-drop-vector influences
are accumulated into the grid. -/
noncomputable def learnSample (grain d : ℕ) (dvs : List (List ℤ × ℝ)) (label : ℕ)
    (features : List (Option ℚ)) (g : Grid) : Grid :=
  if features.any (fun o => o.isNone) then g
  else
    let lf := locF grain features
    let li := lf.map truncQ
    let factor : ℝ := 5 - residual li lf
    dvs.foldl (applyDrop grain d label li factor) g

/-- numpy division: `a / b`, NaN (modelled as `none`) when `b = 0`. -/
def npDiv (a b : ℚ) : Option ℚ := if b = 0 then none else some (a / b)

/-- `np.amax(model, axis=0)`: per-column maximum over the rows. -/
def colMaxs : List (List ℚ) → List ℚ
  | [] => []
  | r :: rs => rs.foldl (fun acc row => List.zipWith max acc row) r

/-- `Exposer.normalize`: `self.model /= np.amax(self.model, axis=0)` — each
cell of each class column divided by that column's maximum (no guard in the
source; a zero maximum produces NaN, modelled as `none`). -/
def normalize (m : List (List ℚ)) : List (List (Option ℚ)) :=
  m.map (fun row => List.zipWith npDiv row (colMaxs m))

/-- `np.max(pixel)` for a per-class support row. -/
def listMax : List ℚ → ℚ
  | [] => 0
  | x :: xs => xs.foldl max x

/-- `np.argmax(pixel)`: index of the first maximal entry. -/
def argmaxIdx (l : List ℚ) : ℕ := l.findIdx (fun x => decide (x = listMax l))

/-- The presence accumulation of `Exposer.calculate_measures`: the loop
`if value > treshold: presence[cmax_i] += 1` with `treshold = .7`,
`value = np.max(pixel)` and `cmax_i = np.argmax(pixel)`, written as a count
per class. -/
def presenceCounts (numClasses : ℕ) (model : List (List ℚ)) : List ℚ :=
  (List.range numClasses).map (fun c =>
    ((model.filter (fun px =>
      decide ((7 : ℚ) / 10 < listMax px) && decide (argmaxIdx px = c))).length : ℚ))

/-- The theta-vector computation of `Exposer.calculate_measures`:
`presence /= sum(presence)` followed by `thetas = [1] * classes - presence`.
The source has no guard: a zero presence total makes numpy return NaN for
every entry, modelled as `none`. -/
def calculate_measures (numClasses : ℕ) (model : List (List ℚ)) : Option (List ℚ) :=
  let presence := presenceCounts numClasses model
  if presence.sum = 0 then none
  else some (presence.map (fun x => 1 - x / presence.sum))

/-- The voting-method enum of the source. -/
inductive ExposerVotingMethod where
  | lone | theta1 | theta2 | theta3 | thetas

/-- Replacement of missing query features in `Exposer.predict`:
`features[np.isnan(features)] = .5`. -/
def predictFeatures (features : List (Option ℚ)) : List ℚ :=
  features.map (fun o => o.getD (1 / 2))

/-- Query quantization in `Exposer.predict`:
`int(feature * grain) if feature < 1 else grain - 1`. -/
def queryLocation (grain : ℕ) (features : List ℚ) : List ℤ :=
  features.map (fun f => if f < 1 then truncQ (f * (grain : ℚ)) else (grain : ℤ) - 1)

/-- The support contribution dispatch of `Exposer.predict` (the if/elif
chain over the voting method, with `thetas` as the final else branch). -/
noncomputable def givenSupport (m : ExposerVotingMethod) (theta : ℝ) (thetasV : List ℝ)
    (saturation : ℝ) (support : List ℝ) : List ℝ :=
  match m with
  | .lone => support
  | .theta1 => support.map (fun s => theta * s)
  | .theta2 => List.zipWith (fun t s => t * s) thetasV support
  | .theta3 => (List.zipWith (fun t s => t * s) thetasV support).map (fun s => theta * s)
  | .thetas => (List.zipWith (fun t s => t * s) thetasV support).map
      (fun s => saturation * theta * s)

/-! Mixed-radix arithmetic: the counters of `dropVectors` and the flat
indexing of `position` are both base-`D` digit expansions. -/

lemma mixedEncode_lt {D : ℕ} :
    ∀ t : List ℕ, (∀ x ∈ t, x < D) → mixedEncode D t < D ^ t.length := by
  intro t
  induction t with
  | nil => intro _; simp [mixedEncode]
  | cons x xs ih =>
    intro h
    have hx : x < D := h x (List.mem_cons_self x xs)
    have he : mixedEncode D xs < D ^ xs.length :=
      ih (fun y hy => h y (List.mem_cons_of_mem _ hy))
    simp only [mixedEncode, List.length_cons, pow_succ]
    calc x + D * mixedEncode D xs
        < D + D * mixedEncode D xs := by omega
    _ = D * (mixedEncode D xs + 1) := by ring
    _ ≤ D * D ^ xs.length := Nat.mul_le_mul_left D (by omega)
    _ = D ^ xs.length * D := Nat.mul_comm _ _

lemma mixedEncode_digit {D : ℕ} (hD : 0 < D) :
    ∀ t : List ℕ, (∀ x ∈ t, x < D) → ∀ j, mixedEncode D t / D ^ j % D = t.getD j 0 := by
  intro t
  induction t with
  | nil => intro _ j; simp [mixedEncode]
  | cons x xs ih =>
    intro h j
    have hx : x < D := h x (List.mem_cons_self x xs)
    cases j with
    | zero =>
      simp [mixedEncode, Nat.add_mul_mod_self_left, Nat.mod_eq_of_lt hx]
    | succ j =>
      have h1 : (x + D * mixedEncode D xs) / D ^ (j + 1) = mixedEncode D xs / D ^ j := by
        rw [pow_succ', ← Nat.div_div_eq_div_mul]
        congr 1
        rw [Nat.add_mul_div_left _ _ hD, Nat.div_eq_of_lt hx, Nat.zero_add]
      rw [mixedEncode, h1, ih (fun y hy => h y (List.mem_cons_of_mem _ hy)) j]
      simp

lemma succ_mod_ite {D : ℕ} (hD : 0 < D) (a : ℕ) :
    (a + 1) % D = if a % D + 1 = D then 0 else a % D + 1 := by
  have h1 : (a % D + 1) % D = (a + 1) % D := Nat.mod_add_mod a D 1
  split_ifs with h
  · rw [← h1, h, Nat.mod_self]
  · have h2 : a % D < D := Nat.mod_lt a hD
    rw [← h1, Nat.mod_eq_of_lt (by omega)]

/-- Closed form of the counter: after iteration `i`, the helper vector of
`dropVectors` holds the base-`D` digits of `i`. -/
lemma vFun_succ {D : ℕ} (hD : 0 < D) (j : ℕ) :
    ∀ i, vFun D (i + 1) j = ((i / D ^ j % D : ℕ) : ℤ) := by
  intro i
  induction i with
  | zero =>
    simp [vFun]
  | succ i ih =>
    have hpj : 0 < D ^ j := pow_pos hD j
    by_cases hdvd : (i + 1) % D ^ j = 0
    · have hd2 : D ^ j ∣ (i + 1) := Nat.dvd_of_mod_eq_zero hdvd
      have hsd : (i + 1) / D ^ j = i / D ^ j + 1 := by
        rw [Nat.succ_div, if_pos hd2]
      show (let x := vFun D (i + 1) j;
        if (i + 1) % D ^ j = 0 then (if x + 1 = (D : ℤ) then 0 else x + 1) else x) = _
      rw [if_pos hdvd] at *
      rw [ih, hsd, succ_mod_ite hD]
      rw [apply_ite (fun n : ℕ => (n : ℤ))]
      have hiff : (((i / D ^ j % D : ℕ) : ℤ) + 1 = (D : ℤ)) ↔ (i / D ^ j % D + 1 = D) := by
        omega
      simp only [hiff]
      split_ifs with h <;> simp
    · have hnd : ¬ D ^ j ∣ (i + 1) := fun hc => hdvd (Nat.mod_eq_zero_of_dvd hc)
      have hsd : (i + 1) / D ^ j = i / D ^ j := by
        rw [Nat.succ_div, if_neg hnd, Nat.add_zero]
      show (let x := vFun D (i + 1) j;
        if (i + 1) % D ^ j = 0 then (if x + 1 = (D : ℤ) then 0 else x + 1) else x) = _
      rw [if_neg hdvd, ih, hsd]

/-! Characterization of the drop-vector enumeration. -/

lemma sumSq_nonneg (p : List ℤ) : 0 ≤ sumSq p := by
  apply List.sum_nonneg
  intro x hx
  obtain ⟨y, _, rfl⟩ := List.mem_map.mp hx
  positivity

lemma sumSq_map_neg (p : List ℤ) : sumSq (p.map (fun x => -x)) = sumSq p := by
  simp [sumSq, List.map_map, Function.comp_def]

lemma dropPoint_length (d qR i : ℕ) : (dropPoint d qR i).length = d := by
  simp [dropPoint]

lemma dropPoint_getElem (d qR i : ℕ) (j : ℕ) (hj : j < (dropPoint d qR i).length) :
    (dropPoint d qR i)[j] =
      ((i / (2 * qR + 1) ^ j % (2 * qR + 1) : ℕ) : ℤ) + -(qR : ℤ) := by
  have hD : 0 < 2 * qR + 1 := by omega
  simp [dropPoint, vFun_succ hD]

lemma mem_dropPoints {d qR : ℕ} {p : List ℤ} :
    p ∈ dropPoints d qR ↔
      p.length = d ∧ (∀ x ∈ p, -(qR : ℤ) ≤ x ∧ x ≤ (qR : ℤ)) ∧
        sumSq p < (qR : ℤ) ^ 2 := by
  have hD : 0 < 2 * qR + 1 := by omega
  constructor
  · intro hp
    obtain ⟨i, _, heq⟩ := List.mem_filterMap.mp hp
    have hcond : sumSq (dropPoint d qR i) < (qR : ℤ) ^ 2 ∧ dropPoint d qR i = p := by
      by_cases hc : sumSq (dropPoint d qR i) < (qR : ℤ) ^ 2
      · rw [if_pos hc] at heq
        exact ⟨hc, Option.some.inj heq⟩
      · rw [if_neg hc] at heq
        exact absurd heq (by simp)
    obtain ⟨hc, rfl⟩ := hcond
    refine ⟨dropPoint_length d qR i, ?_, hc⟩
    intro x hx
    obtain ⟨j, hj, rfl⟩ := List.mem_map.mp hx
    have hjd : j < d := List.mem_range.mp hj
    have hm : i / (2 * qR + 1) ^ j % (2 * qR + 1) < 2 * qR + 1 := Nat.mod_lt _ hD
    rw [vFun_succ hD]
    omega
  · rintro ⟨hlen, hb, hs⟩
    set t : List ℕ := p.map (fun x => (x + (qR : ℤ)).toNat) with ht
    have htlen : t.length = d := by simp [ht, hlen]
    have htb : ∀ y ∈ t, y < 2 * qR + 1 := by
      intro y hy
      obtain ⟨x, hx, rfl⟩ := List.mem_map.mp hy
      have := hb x hx
      omega
    set i := mixedEncode (2 * qR + 1) t with hi
    have hilt : i < (2 * qR + 1) ^ d := by
      have := mixedEncode_lt t htb
      rwa [htlen] at this
    have key : dropPoint d qR i = p := by
      apply List.ext_getElem
      · rw [dropPoint_length, hlen]
      · intro j hj1 hj2
        rw [dropPoint_getElem d qR i j hj1]
        rw [hi, mixedEncode_digit hD t htb j]
        have hjt : j < t.length := by omega
        rw [List.getD_eq_getElem t 0 hjt]
        simp only [ht, List.getElem_map]
        have := hb (p[j]) (p.getElem_mem hj2)
        omega
    apply List.mem_filterMap.mpr
    refine ⟨i, List.mem_range.mpr hilt, ?_⟩
    rw [key, if_pos hs]

lemma mem_dropVectors {d qR : ℕ} {p : List ℤ} {w : ℝ} :
    (p, w) ∈ dropVectors d qR ↔ p ∈ dropPoints d qR ∧ w = dropWeight qR (sumSq p) := by
  constructor
  · intro h
    obtain ⟨q, hq, heq⟩ := List.mem_map.mp h
    obtain ⟨h1, h2⟩ := Prod.mk.injEq _ _ _ _ ▸ heq
    subst h1
    exact ⟨hq, h2.symm⟩
  · rintro ⟨hp, rfl⟩
    exact List.mem_map.mpr ⟨p, hp, rfl⟩

/-! Position encoding: `position` is the mixed-radix encoding of the cell
coordinates, hence a bijection onto the flat index range. -/

lemma gvec_succ (grain d : ℕ) :
    gvec grain (d + 1) = 1 :: (gvec grain d).map (fun g => g * (grain : ℤ)) := by
  simp only [gvec, List.range_succ_eq_map, List.map_cons, List.map_map, pow_zero]
  congr 1

lemma zipWith_mul_map_right_sum (xs gs : List ℤ) (c : ℤ) :
    (List.zipWith (· * ·) xs (gs.map (fun g => g * c))).sum
      = c * (List.zipWith (· * ·) xs gs).sum := by
  induction xs generalizing gs with
  | nil => simp
  | cons x xs ih =>
    cases gs with
    | nil => simp
    | cons g gs =>
      simp only [List.map_cons, List.zipWith_cons_cons, List.sum_cons, ih]
      ring

lemma position_succ (grain d : ℕ) (x : ℤ) (xs : List ℤ) :
    position grain (d + 1) (x :: xs) = x + (grain : ℤ) * position grain d xs := by
  simp only [position, gvec_succ, List.zipWith_cons_cons, List.sum_cons,
    zipWith_mul_map_right_sum]
  ring

lemma position_eq_encode (grain : ℕ) :
    ∀ p : List ℤ, (∀ x ∈ p, 0 ≤ x) →
      position grain p.length p = (mixedEncode grain (p.map Int.toNat) : ℤ) := by
  intro p
  induction p with
  | nil => simp [position, gvec, mixedEncode]
  | cons x xs ih =>
    intro h
    have hx : 0 ≤ x := h x (List.mem_cons_self x xs)
    rw [List.length_cons, position_succ, ih (fun y hy => h y (List.mem_cons_of_mem _ hy))]
    simp only [List.map_cons, mixedEncode]
    push_cast
    rw [Int.toNat_of_nonneg hx]

lemma position_nonneg (grain d : ℕ) (p : List ℤ) (hlen : p.length = d)
    (h : ∀ x ∈ p, 0 ≤ x) : 0 ≤ position grain d p := by
  subst hlen
  rw [position_eq_encode grain p h]
  exact Int.natCast_nonneg _

lemma toNat_bounds {grain : ℕ} {p : List ℤ} (h : ∀ x ∈ p, 0 ≤ x ∧ x < (grain : ℤ)) :
    ∀ y ∈ p.map Int.toNat, y < grain := by
  intro y hy
  obtain ⟨x, hx, rfl⟩ := List.mem_map.mp hy
  have := h x hx
  omega

lemma position_lt (grain d : ℕ) (p : List ℤ) (hlen : p.length = d)
    (h : ∀ x ∈ p, 0 ≤ x ∧ x < (grain : ℤ)) : position grain d p < (grain : ℤ) ^ d := by
  subst hlen
  rw [position_eq_encode grain p (fun x hx => (h x hx).1)]
  have hlt := mixedEncode_lt (p.map Int.toNat) (toNat_bounds h)
  rw [List.length_map] at hlt
  exact_mod_cast hlt

lemma positionDecode_position (grain d : ℕ) (hg : 0 < grain) (p : List ℤ)
    (hlen : p.length = d) (h : ∀ x ∈ p, 0 ≤ x ∧ x < (grain : ℤ)) :
    positionDecode grain d (position grain d p).toNat = p := by
  subst hlen
  have hval := position_eq_encode grain p (fun x hx => (h x hx).1)
  have htn : (position grain p.length p).toNat = mixedEncode grain (p.map Int.toNat) := by
    rw [hval, Int.toNat_natCast]
  apply List.ext_getElem
  · simp [positionDecode]
  · intro j hj1 hj2
    have hjd : j < p.length := by simpa [positionDecode] using hj1
    simp only [positionDecode, List.getElem_map, List.getElem_range]
    rw [htn, mixedEncode_digit hg (p.map Int.toNat) (toNat_bounds h) j]
    rw [List.getD_eq_getElem _ 0 (by simpa using hjd)]
    simp only [List.getElem_map]
    have := h (p[j]) (p.getElem_mem hjd)
    omega

/-! Grid accumulation: pointwise description of the drop-vector fold of
`Exposer.learn`. -/

lemma truncQ_eq_floor {q : ℚ} (h : 0 ≤ q) : truncQ q = ⌊q⌋ := if_pos h

lemma applyDrop_apply (grain d : ℕ) (label : ℕ) (li : List ℤ) (factor : ℝ)
    (g : Grid) (dv : List ℤ × ℝ) (pos : ℤ) (lab : ℕ) :
    applyDrop grain d label li factor g dv pos lab =
      g pos lab +
        (if overflow grain d (List.zipWith (· + ·) dv.1 li) = false ∧
            position grain d (List.zipWith (· + ·) dv.1 li) = pos ∧ lab = label
          then dv.2 * factor else 0) := by
  cases hov : overflow grain d (List.zipWith (· + ·) dv.1 li) with
  | true =>
    simp only [applyDrop, hov, if_true, Bool.true_eq_false, false_and, if_false]
    ring
  | false =>
    simp only [applyDrop, hov, Bool.false_eq_true, if_false, gridAdd, true_and]
    split_ifs with h1 h2 h3
    · ring
    · exact absurd ⟨h1.1.symm, h1.2⟩ h2
    · exact absurd ⟨h3.1.symm, h3.2⟩ h1
    · ring

lemma foldl_applyDrop (grain d : ℕ) (label : ℕ) (li : List ℤ) (factor : ℝ)
    (pos : ℤ) (lab : ℕ) :
    ∀ (dvs : List (List ℤ × ℝ)) (g : Grid),
      dvs.foldl (applyDrop grain d label li factor) g pos lab =
        g pos lab +
          (if lab = label then
            ((dvs.filter (fun dv =>
                !overflow grain d (List.zipWith (· + ·) dv.1 li) &&
                (position grain d (List.zipWith (· + ·) dv.1 li) == pos))).map
              (fun dv => dv.2 * factor)).sum
          else 0) := by
  intro dvs
  induction dvs with
  | nil => intro g; simp
  | cons dv rest ih =>
    intro g
    rw [List.foldl_cons, ih, applyDrop_apply, List.filter_cons]
    by_cases hlab : lab = label
    · simp only [if_pos hlab]
      by_cases hc : (!overflow grain d (List.zipWith (· + ·) dv.1 li) &&
          (position grain d (List.zipWith (· + ·) dv.1 li) == pos)) = true
      · have hc2 : overflow grain d (List.zipWith (· + ·) dv.1 li) = false ∧
            position grain d (List.zipWith (· + ·) dv.1 li) = pos := by
          simpa [Bool.and_eq_true, Bool.not_eq_true', beq_iff_eq] using hc
        rw [if_pos hc, if_pos ⟨hc2.1, hc2.2, hlab⟩, List.map_cons, List.sum_cons]
        ring
      · rw [if_neg hc, if_neg (fun hcon =>
          hc (by simp [Bool.and_eq_true, Bool.not_eq_true', beq_iff_eq, hcon.1, hcon.2.1]))]
        ring
    · simp only [if_neg hlab]
      rw [if_neg (fun hcon => hlab hcon.2.2)]
      ring

lemma locF_nonneg {grain : ℕ} {features : List (Option ℚ)}
    (hnn : ∀ o ∈ features, 0 ≤ o.getD (0 : ℚ)) :
    ∀ q ∈ locF grain features, 0 ≤ q := by
  intro q hq
  obtain ⟨f, hf, rfl⟩ := List.mem_map.mp hq
  obtain ⟨o, ho, rfl⟩ := List.mem_map.mp hf
  exact mul_nonneg (hnn o ho) (by positivity)

lemma map_truncQ_eq_floorLoc {l : List ℚ} (h : ∀ q ∈ l, 0 ≤ q) :
    l.map truncQ = floorLoc l := by
  unfold floorLoc
  exact List.map_congr_left (fun q hq => truncQ_eq_floor (h q hq))

lemma learnSample_eq (grain d : ℕ) (dvs : List (List ℤ × ℝ)) (label : ℕ)
    (features : List (Option ℚ)) (g : Grid)
    (hnone : features.any (fun o => o.isNone) = false) :
    learnSample grain d dvs label features g =
      dvs.foldl (applyDrop grain d label ((locF grain features).map truncQ)
        (5 - residual ((locF grain features).map truncQ) (locF grain features))) g := by
  simp only [learnSample, hnone, Bool.false_eq_true, if_false]

/-! Boundary check and query quantization. -/

lemma overflow_eq_false_iff {grain d : ℕ} {vec : List ℤ} (hlen : vec.length = d) :
    overflow grain d vec = false ↔ ∀ x ∈ vec, 0 ≤ x ∧ x < (grain : ℤ) := by
  unfold overflow
  rw [List.any_eq_false]
  constructor
  · intro h x hx
    obtain ⟨j, hjl, rfl⟩ := List.getElem_of_mem hx
    have hmem : j ∈ List.range d := List.mem_range.mpr (hlen ▸ hjl)
    have hcond := h j hmem
    rw [List.getD_eq_getElem vec 0 hjl] at hcond
    simp at hcond
    omega
  · intro h j hj
    have hjl : j < vec.length := hlen ▸ List.mem_range.mp hj
    rw [List.getD_eq_getElem vec 0 hjl]
    have hb := h (vec[j]) (vec.getElem_mem hjl)
    simp
    omega

lemma learnSample_skip (grain d : ℕ) (dvs : List (List ℤ × ℝ)) (label : ℕ)
    (features : List (Option ℚ)) (g : Grid) (h : ∃ o ∈ features, o = none) :
    learnSample grain d dvs label features g = g := by
  have hany : features.any (fun o => o.isNone) = true := by
    obtain ⟨o, ho, rfl⟩ := h
    exact List.any_eq_true.mpr ⟨none, ho, rfl⟩
  simp [learnSample, hany]

lemma queryLocation_length (grain : ℕ) (features : List ℚ) :
    (queryLocation grain features).length = features.length := by
  simp [queryLocation]

lemma predictFeatures_length (features : List (Option ℚ)) :
    (predictFeatures features).length = features.length := by
  simp [predictFeatures]

lemma queryLocation_bounds {grain : ℕ} (hg : 1 ≤ grain) {features : List ℚ}
    (hnn : ∀ f ∈ features, 0 ≤ f) :
    ∀ x ∈ queryLocation grain features, 0 ≤ x ∧ x < (grain : ℤ) := by
  intro x hx
  obtain ⟨f, hf, rfl⟩ := List.mem_map.mp hx
  have hf0 := hnn f hf
  have hgq : (0 : ℚ) < (grain : ℚ) := by exact_mod_cast hg
  by_cases h1 : f < 1
  · rw [if_pos h1, truncQ_eq_floor (mul_nonneg hf0 hgq.le)]
    refine ⟨Int.floor_nonneg.mpr (mul_nonneg hf0 hgq.le), ?_⟩
    rw [Int.floor_lt]
    push_cast
    calc f * (grain : ℚ) < 1 * (grain : ℚ) := by
          exact mul_lt_mul_of_pos_right h1 hgq
    _ = (grain : ℚ) := one_mul _
  · rw [if_neg h1]
    omega

lemma predictFeatures_nonneg {features : List (Option ℚ)}
    (hnn : ∀ o ∈ features, 0 ≤ o.getD (1 / 2 : ℚ)) :
    ∀ f ∈ predictFeatures features, 0 ≤ f := by
  intro f hf
  obtain ⟨o, ho, rfl⟩ := List.mem_map.mp hf
  exact hnn o ho

lemma queryLocation_missing {grain : ℕ} {features : List (Option ℚ)} {j : ℕ}
    (hj : j < features.length) (hmiss : features.getD j (some 0) = none) :
    (queryLocation grain (predictFeatures features)).getD j 0 =
      truncQ ((1 / 2 : ℚ) * (grain : ℚ)) := by
  have hj3 : j < (queryLocation grain (predictFeatures features)).length := by
    simp [queryLocation, predictFeatures, hj]
  rw [List.getD_eq_getElem _ 0 hj3]
  rw [List.getD_eq_getElem _ _ hj] at hmiss
  simp only [queryLocation, predictFeatures, List.getElem_map, hmiss, Option.getD_none]
  rw [if_pos (by norm_num)]

/-! Claim theorems. -/

/-- C1: `Exposer.normalize` divides each class column of the grid by that
column's maximum with no zero guard; evaluated at a model whose class-0
column is entirely zero, the whole column becomes NaN (`none`) instead of
being left all-zero, so the guarded behaviour the claim describes does not
hold of the code. -/
theorem normalize_zero_column_nan :
    normalize [[0, 1], [0, 2]] = [[none, some (1 / 2)], [none, some 1]] := by
  norm_num [normalize, colMaxs, npDiv, max_def]

/-- C4: a configuration whose `radius * grain` quantizes to zero is not
rejected at construction: with radius 1/10 and grain 5 the quantized
radius is 0 and `Exposer.__init__` silently computes an empty drop-vector
list (the strict distance filter discards even the origin). -/
theorem zero_quantized_radius_accepted :
    quantizedRadius (1 / 10) 5 = 0 ∧ exposerDropVectors (1 / 10) 5 2 = [] := by
  have h0 : quantizedRadius (1 / 10) 5 = 0 := by
    norm_num [quantizedRadius, truncQ]
  refine ⟨h0, ?_⟩
  have h : dropPoints 2 (0 : ℤ).toNat = [] := by decide
  unfold exposerDropVectors
  rw [h0]
  unfold dropVectors
  rw [h, List.map_nil]

/-- C5: `Exposer.calculate_measures` divides the presence vector by its
total with no zero guard; on a grid where no cell value exceeds the 0.7
threshold the total presence is 0 and the theta vector becomes NaN
(`none`) instead of staying at its default. -/
theorem calculate_measures_zero_presence_nan :
    calculate_measures 2 [[1 / 2, 3 / 5]] = none := by
  have hmax : listMax [1 / 2, 3 / 5] = 3 / 5 := by
    norm_num [listMax, max_def]
  have hcount : presenceCounts 2 [[1 / 2, 3 / 5]] = [0, 0] := by
    simp only [presenceCounts, List.range_succ, List.range_zero]
    norm_num [List.filter, hmax]
  simp only [calculate_measures]
  rw [hcount]
  norm_num

/-- C6: `Exposer.position` maps a coordinate vector with all components in
[0, grain) to an index in [0, grain^dimensions), and inverse mixed-radix
decoding of the index recovers the coordinate vector, so the encoding is a
bijection onto the flat index range. -/
theorem position_bijective_on_hypercube (grain d : ℕ) (p : List ℤ)
    (hg : 1 ≤ grain) (hlen : p.length = d)
    (hb : ∀ x ∈ p, 0 ≤ x ∧ x < (grain : ℤ)) :
    0 ≤ position grain d p ∧ position grain d p < (grain : ℤ) ^ d ∧
      positionDecode grain d (position grain d p).toNat = p :=
  ⟨position_nonneg grain d p hlen (fun x hx => (hb x hx).1),
   position_lt grain d p hlen hb,
   positionDecode_position grain d hg p hlen hb⟩

theorem position_bijective_on_hypercube_witness :
    0 ≤ position 3 2 [1, 2] ∧ position 3 2 [1, 2] < (3 : ℤ) ^ 2 ∧
      positionDecode 3 2 (position 3 2 [1, 2]).toNat = [1, 2] :=
  position_bijective_on_hypercube 3 2 [1, 2] (by decide) (by decide) (by decide)

/-- C9: for the same grid row, the support contribution under the theta1
voting mode equals theta times the contribution under the lone mode,
elementwise for every class index. -/
theorem voting_theta1_scales_lone (theta saturation : ℝ) (thetasV support : List ℝ)
    (c : ℕ) (hc : c < support.length) :
    (givenSupport .theta1 theta thetasV saturation support).getD c 0 =
      theta * (givenSupport .lone theta thetasV saturation support).getD c 0 := by
  simp only [givenSupport]
  rw [List.getD_eq_getElem _ _ (by simpa using hc), List.getD_eq_getElem _ _ hc,
    List.getElem_map]

theorem voting_theta1_scales_lone_witness :
    (givenSupport .theta1 2 [] 0 [3]).getD 0 0 =
      2 * (givenSupport .lone 2 [] 0 [3]).getD 0 0 :=
  voting_theta1_scales_lone 2 0 [] [3] 0 (by norm_num)

/-- C10: writes of `Exposer.learn` stay inside the allocated model: when
the boundary check passes, the flat position of the shifted coordinate
lies in [0, grain^dimensions); and processing a drop vector never changes
the grid at any out-of-range index, whatever the offset. -/
theorem learn_in_bounds_write (grain d : ℕ) (label : ℕ) (li : List ℤ) (factor : ℝ)
    (dv : List ℤ × ℝ) (_hg : 1 ≤ grain) (hl1 : dv.1.length = d) (hl2 : li.length = d) :
    (overflow grain d (List.zipWith (· + ·) dv.1 li) = false →
      0 ≤ position grain d (List.zipWith (· + ·) dv.1 li) ∧
        position grain d (List.zipWith (· + ·) dv.1 li) < (grain : ℤ) ^ d) ∧
    (∀ (g : Grid) (pos : ℤ) (lab : ℕ), pos < 0 ∨ (grain : ℤ) ^ d ≤ pos →
      applyDrop grain d label li factor g dv pos lab = g pos lab) := by
  have hlen : (List.zipWith (· + ·) dv.1 li).length = d := by
    simp [List.length_zipWith, hl1, hl2]
  constructor
  · intro hov
    have hb := (overflow_eq_false_iff hlen).mp hov
    exact ⟨position_nonneg grain d _ hlen (fun x hx => (hb x hx).1),
      position_lt grain d _ hlen hb⟩
  · intro g pos lab hout
    cases hov : overflow grain d (List.zipWith (· + ·) dv.1 li) with
    | true => simp [applyDrop, hov]
    | false =>
      have hb := (overflow_eq_false_iff hlen).mp hov
      have hpos := position_nonneg grain d _ hlen (fun x hx => (hb x hx).1)
      have hlt := position_lt grain d _ hlen hb
      have hne : ¬(pos = position grain d (List.zipWith (· + ·) dv.1 li) ∧ lab = label) := by
        rintro ⟨rfl, -⟩
        rcases hout with hcase | hcase <;> omega
      simp only [applyDrop, hov, Bool.false_eq_true, if_false, gridAdd]
      rw [if_neg hne]

theorem learn_in_bounds_write_witness :
    (0 ≤ position 2 1 (List.zipWith (· + ·) ([0] : List ℤ) [0]) ∧
      position 2 1 (List.zipWith (· + ·) ([0] : List ℤ) [0]) < (2 : ℤ) ^ 1) ∧
    applyDrop 2 1 0 [0] 0 (fun _ _ => 0) ([0], 1) 2 0 = (fun _ _ => (0 : ℝ)) 2 0 :=
  ⟨(learn_in_bounds_write 2 1 0 [0] 0 ([0], 1) (by decide) (by decide) (by decide)).1
      (by decide),
   (learn_in_bounds_write 2 1 0 [0] 0 ([0], 1) (by decide) (by decide) (by decide)).2
      (fun _ _ => 0) 2 0 (Or.inr (by norm_num))⟩

/-- C2: for quantizedRadius = floor(radius*grain) ≥ 1, the computed
drop-vector list holds exactly the integer offset vectors of the hypercube
[-quantizedRadius, quantizedRadius]^d whose Euclidean norm is strictly
less than quantizedRadius, each paired with weight
(quantizedRadius - norm) / quantizedRadius, and nothing else. -/
theorem dropVectors_characterization (d grain : ℕ) (radius : ℚ)
    (_hd : 1 ≤ d) (hq : 1 ≤ quantizedRadius radius grain) (p : List ℤ) (w : ℝ) :
    (p, w) ∈ exposerDropVectors radius grain d ↔
      (p.length = d ∧
        (∀ x ∈ p, -(quantizedRadius radius grain) ≤ x ∧ x ≤ quantizedRadius radius grain) ∧
        Real.sqrt ((sumSq p : ℤ) : ℝ) < ((quantizedRadius radius grain : ℤ) : ℝ) ∧
        w = (((quantizedRadius radius grain : ℤ) : ℝ) - Real.sqrt ((sumSq p : ℤ) : ℝ)) /
              ((quantizedRadius radius grain : ℤ) : ℝ)) := by
  have hn : ((quantizedRadius radius grain).toNat : ℤ) = quantizedRadius radius grain :=
    Int.toNat_of_nonneg (by omega)
  have hqr : (0 : ℝ) < ((quantizedRadius radius grain : ℤ) : ℝ) := by
    exact_mod_cast lt_of_lt_of_le zero_lt_one hq
  have hnr : (((quantizedRadius radius grain).toNat : ℕ) : ℝ) =
      ((quantizedRadius radius grain : ℤ) : ℝ) := by
    exact_mod_cast hn
  unfold exposerDropVectors
  rw [mem_dropVectors, mem_dropPoints]
  constructor
  · rintro ⟨⟨hlen, hb, hs⟩, rfl⟩
    refine ⟨hlen, ?_, ?_, ?_⟩
    · intro x hx
      have := hb x hx
      omega
    · rw [Real.sqrt_lt' hqr]
      have hs2 : sumSq p < quantizedRadius radius grain ^ 2 := by
        rw [← hn]
        exact_mod_cast hs
      exact_mod_cast hs2
    · unfold dropWeight
      rw [hnr]
  · rintro ⟨hlen, hb, hsq, rfl⟩
    refine ⟨⟨hlen, ?_, ?_⟩, ?_⟩
    · intro x hx
      have := hb x hx
      omega
    · have h1 : ((sumSq p : ℤ) : ℝ) < ((quantizedRadius radius grain : ℤ) : ℝ) ^ 2 :=
        (Real.sqrt_lt' hqr).mp hsq
      have h2 : sumSq p < quantizedRadius radius grain ^ 2 := by exact_mod_cast h1
      rw [hn]
      exact h2
    · unfold dropWeight
      rw [hnr]

theorem dropVectors_characterization_witness :
    ([0], (1 : ℝ)) ∈ exposerDropVectors (1 / 2) 2 1 := by
  have h1 : quantizedRadius (1 / 2) 2 = 1 := by norm_num [quantizedRadius, truncQ]
  have hs0 : sumSq [0] = 0 := by simp [sumSq]
  apply (dropVectors_characterization 1 2 (1 / 2) le_rfl (by rw [h1]) [0] 1).mpr
  rw [h1, hs0]
  refine ⟨rfl, ?_, ?_, ?_⟩
  · intro x hx
    rw [List.mem_singleton] at hx
    omega
  · simp [Real.sqrt_zero]
  · simp [Real.sqrt_zero]

/-- C7: with quantizedRadius ≥ 1, every drop vector's weight lies in
(0, 1], and the drop-vector set is symmetric under negation of the offset
vector. -/
theorem dropVectors_weight_symm (d grain : ℕ) (radius : ℚ)
    (hq : 1 ≤ quantizedRadius radius grain) (p : List ℤ) (w : ℝ)
    (hmem : (p, w) ∈ exposerDropVectors radius grain d) :
    (0 < w ∧ w ≤ 1) ∧ (p.map (fun x => -x), w) ∈ exposerDropVectors radius grain d := by
  unfold exposerDropVectors at hmem ⊢
  rw [mem_dropVectors, mem_dropPoints] at hmem
  obtain ⟨⟨hlen, hb, hs⟩, rfl⟩ := hmem
  have hn1 : 1 ≤ (quantizedRadius radius grain).toNat := by omega
  have hnr : (0 : ℝ) < (((quantizedRadius radius grain).toNat : ℕ) : ℝ) := by
    exact_mod_cast hn1
  have hsqrt : Real.sqrt ((sumSq p : ℤ) : ℝ) <
      (((quantizedRadius radius grain).toNat : ℕ) : ℝ) := by
    rw [Real.sqrt_lt' hnr]
    exact_mod_cast hs
  constructor
  · unfold dropWeight
    constructor
    · apply div_pos _ hnr
      linarith
    · rw [div_le_one hnr]
      have := Real.sqrt_nonneg ((sumSq p : ℤ) : ℝ)
      linarith
  · rw [mem_dropVectors, mem_dropPoints, sumSq_map_neg]
    refine ⟨⟨by simp [hlen], ?_, hs⟩, rfl⟩
    intro x hx
    obtain ⟨y, hy, rfl⟩ := List.mem_map.mp hx
    have := hb y hy
    omega

theorem dropVectors_weight_symm_witness :
    (0 < (1 : ℝ) ∧ (1 : ℝ) ≤ 1) ∧
      (([0] : List ℤ).map (fun x => -x), (1 : ℝ)) ∈ exposerDropVectors (1 / 2) 2 1 := by
  have h1 : quantizedRadius (1 / 2) 2 = 1 := by norm_num [quantizedRadius, truncQ]
  have hs0 : sumSq [0] = 0 := by simp [sumSq]
  have hmem : (([0] : List ℤ), (1 : ℝ)) ∈ exposerDropVectors (1 / 2) 2 1 := by
    unfold exposerDropVectors
    rw [mem_dropVectors, mem_dropPoints, h1, hs0]
    refine ⟨⟨rfl, ?_, by norm_num⟩, ?_⟩
    · intro x hx
      rw [List.mem_singleton] at hx
      omega
    · unfold dropWeight
      norm_num [Real.sqrt_zero]
  exact dropVectors_weight_symm 1 2 (1 / 2) (by rw [h1]) [0] 1 hmem

/-- C3: for a training sample with no missing selected feature, with
loc_f = features * grain, loc_i = floor(loc_f) and
factor = 5 - dist(loc_i, loc_f), the grid after the sample holds, at every
cell and class, its old value plus weight * factor summed over exactly the
drop vectors whose shifted cell stays inside [0, grain)^d and lands on that
cell for the sample's label; out-of-range drop vectors are skipped. -/
theorem learn_accumulation (grain d : ℕ) (dvs : List (List ℤ × ℝ)) (label : ℕ)
    (features : List (Option ℚ)) (g : Grid) (pos : ℤ) (lab : ℕ)
    (hsome : ∀ o ∈ features, o ≠ none)
    (hnn : ∀ o ∈ features, 0 ≤ o.getD (0 : ℚ)) :
    learnSample grain d dvs label features g pos lab =
      g pos lab +
        (if lab = label then
          ((dvs.filter (fun dv =>
              !overflow grain d (List.zipWith (· + ·) dv.1 (floorLoc (locF grain features))) &&
              (position grain d (List.zipWith (· + ·) dv.1 (floorLoc (locF grain features)))
                == pos))).map
            (fun dv => dv.2 *
              (5 - residual (floorLoc (locF grain features)) (locF grain features)))).sum
        else 0) := by
  have hnone : features.any (fun o => o.isNone) = false := by
    rw [List.any_eq_false]
    intro o ho
    simpa [Option.isNone_iff_eq_none] using hsome o ho
  have hfl : (locF grain features).map truncQ = floorLoc (locF grain features) :=
    map_truncQ_eq_floorLoc (locF_nonneg hnn)
  rw [learnSample_eq grain d dvs label features g hnone, hfl, foldl_applyDrop]

theorem learn_accumulation_witness :
    learnSample 2 1 [([0], (1 : ℝ))] 0 [some (1 / 4)] (fun _ _ => 0) 0 0 =
      (fun _ _ => (0 : ℝ)) 0 0 +
        (if (0 : ℕ) = 0 then
          (([([0], (1 : ℝ))].filter (fun dv =>
              !overflow 2 1 (List.zipWith (· + ·) dv.1 (floorLoc (locF 2 [some (1 / 4)]))) &&
              (position 2 1 (List.zipWith (· + ·) dv.1 (floorLoc (locF 2 [some (1 / 4)])))
                == 0))).map
            (fun dv => dv.2 *
              (5 - residual (floorLoc (locF 2 [some (1 / 4)])) (locF 2 [some (1 / 4)])))).sum
        else 0) :=
  learn_accumulation 2 1 [([0], 1)] 0 [some (1 / 4)] (fun _ _ => 0) 0 0
    (by
      intro o ho
      rw [List.mem_singleton] at ho
      subst ho
      simp)
    (by
      intro o ho
      rw [List.mem_singleton] at ho
      subst ho
      norm_num)

/-- C8: a training sample with a missing selected feature is silently
skipped (the grid is unchanged); a query sample has each missing feature
replaced by 0.5 before quantizing, every quantized component lies inside
[0, grain), and the flat position is a valid model index, so the lookup
cannot fail. -/
theorem missing_value_policy (grain d : ℕ) (dvs : List (List ℤ × ℝ)) (label : ℕ)
    (features : List (Option ℚ)) (g : Grid) (hg : 1 ≤ grain)
    (hnn : ∀ o ∈ features, 0 ≤ o.getD (1 / 2 : ℚ)) :
    ((∃ o ∈ features, o = none) → learnSample grain d dvs label features g = g) ∧
    (∀ x ∈ queryLocation grain (predictFeatures features), 0 ≤ x ∧ x < (grain : ℤ)) ∧
    0 ≤ position grain features.length (queryLocation grain (predictFeatures features)) ∧
    position grain features.length (queryLocation grain (predictFeatures features)) <
      (grain : ℤ) ^ features.length ∧
    (∀ j, j < features.length → features.getD j (some 0) = none →
      (queryLocation grain (predictFeatures features)).getD j 0 =
        truncQ ((1 / 2 : ℚ) * (grain : ℚ))) := by
  have hbound := queryLocation_bounds hg (predictFeatures_nonneg hnn)
  have hlen : (queryLocation grain (predictFeatures features)).length = features.length := by
    rw [queryLocation_length, predictFeatures_length]
  refine ⟨learnSample_skip grain d dvs label features g, hbound, ?_, ?_, ?_⟩
  · exact position_nonneg _ _ _ hlen (fun x hx => (hbound x hx).1)
  · exact position_lt _ _ _ hlen hbound
  · intro j hj hmiss
    exact queryLocation_missing hj hmiss

theorem missing_value_policy_witness :
    learnSample 2 2 [] 0 [none, some (3 / 4)] (fun _ _ => 0) = (fun _ _ => (0 : ℝ)) ∧
    0 ≤ position 2 2 (queryLocation 2 (predictFeatures [none, some (3 / 4)])) ∧
    position 2 2 (queryLocation 2 (predictFeatures [none, some (3 / 4)])) < (2 : ℤ) ^ 2 ∧
    (queryLocation 2 (predictFeatures [none, some (3 / 4)])).getD 0 0 =
      truncQ ((1 / 2 : ℚ) * (2 : ℚ)) := by
  have h := missing_value_policy 2 2 [] 0 [none, some (3 / 4)] (fun _ _ => 0)
    (by norm_num)
    (by
      intro o ho
      rcases List.mem_cons.mp ho with rfl | ho2
      · norm_num
      · rw [List.mem_singleton] at ho2
        subst ho2
        norm_num)
  exact ⟨h.1 ⟨none, by simp, rfl⟩, h.2.2.1, h.2.2.2.1, h.2.2.2.2 0 (by simp) rfl⟩

end Exposer
